import Mathlib

/-!
Shallow embedding of the GoMQ Bitcask-style storage engine core
(src/index.go) and proofs about its Put/Get/Compact/recoverIndex
operations and its record codec.

Bytes are modelled as `List Nat` (each element a byte value), Go machine
integers as `Nat` / `Int` with explicit `% 2^32` where uint32 overflow
matters, Go panics as `Option.none`, and Go errors as `Except GoErr`.
-/

set_option maxHeartbeats 1600000

namespace GoMQ

deriving instance DecidableEq for Except

/-- Error kinds surfaced by the engine: the key-not-found error of Get and
the corrupt-record errors of the record codec. -/
inductive GoErr where
  | NotFound
  | Corrupt
deriving DecidableEq, Repr

abbrev Bytes := List Nat

abbrev Key := List Nat

/-- Little-endian four-byte encoding of a 32-bit value, as produced by
binary.Write with binary.LittleEndian for a uint32 field. -/
def u32le (n : Nat) : Bytes :=
  [n % 256, n / 256 % 256, n / 65536 % 256, n / 16777216 % 256]

/-- Little-endian 32-bit read of the first four bytes of a buffer; when
fewer than four bytes remain the result is 0, as binary.Read leaves the
target zeroed on error. -/
def readU32 : Bytes → Nat
  | a :: b :: c :: d :: _ => a + 256 * b + 65536 * c + 16777216 * d
  | _ => 0

/-- Go int32 reinterpretation of a uint32 bit pattern
(the casts int32(binary.LittleEndian.Uint32(...)) in src/index.go). -/
def toInt32 (n : Nat) : Int :=
  if n % 2 ^ 32 < 2 ^ 31 then ((n % 2 ^ 32 : Nat) : Int)
  else ((n % 2 ^ 32 : Nat) : Int) - 2 ^ 32

/-- One bit step of the reflected CRC-32 with the IEEE polynomial
0xEDB88320, as in hash/crc32. -/
def crc32Step (c : Nat) : Nat :=
  if c % 2 = 1 then (c / 2) ^^^ 0xEDB88320 else c / 2

/-- Folds one byte into the running CRC state: xor the byte in, then
eight bit steps. -/
def crc32Byte (c b : Nat) : Nat :=
  crc32Step (crc32Step (crc32Step (crc32Step
    (crc32Step (crc32Step (crc32Step (crc32Step (c ^^^ b % 256))))))))

/-- crc32.ChecksumIEEE: initial state 0xFFFFFFFF, per-byte update, final
xor with 0xFFFFFFFF; the result is a uint32. -/
def crc32 (l : Bytes) : Nat :=
  ((l.foldl crc32Byte 0xFFFFFFFF) ^^^ 0xFFFFFFFF) % 2 ^ 32

/-- Header: the fixed-width fields at the start of every record
(src/index.go). Each field is a uint32. -/
structure Header where
  Checksum : Nat
  Timestamp : Nat
  Expiry : Nat
  KeySize : Nat
  ValSize : Nat
deriving DecidableEq, Repr

/-- Header.encode: binary.Write of the five uint32 fields in declaration
order, little-endian, 20 bytes in total (src/index.go). -/
def Header.encode (h : Header) : Bytes :=
  u32le h.Checksum ++ u32le h.Timestamp ++ u32le h.Expiry ++
    u32le h.KeySize ++ u32le h.ValSize

/-- Header.decode: binary.Read of the five little-endian uint32 fields
from the front of the buffer; none models the read error when fewer than
20 bytes are supplied (src/index.go). -/
def Header.decode (record : Bytes) : Option Header :=
  if record.length < 20 then none
  else
    some ⟨readU32 record, readU32 (record.drop 4), readU32 (record.drop 8),
          readU32 (record.drop 12), readU32 (record.drop 16)⟩

/-- Record: header plus key bytes plus value bytes (src/index.go). -/
structure Record where
  Header : Header
  Key : Bytes
  Value : Bytes
deriving DecidableEq, Repr

/-- Modelled from the spec: Record.encode is called by Put but its body is
absent from src; spec sections 4.1 and 6 fix the layout as the fixed
header bytes followed by the key bytes and then the value bytes, with no
padding. -/
def Record.encode (r : Record) : Bytes :=
  r.Header.encode ++ r.Key ++ r.Value

/-- FileOffset: location descriptor stored in the index; FileID -1 is the
sentinel for the active file (src/index.go). -/
structure FileOffset where
  FileID : Int
  Offset : Int
deriving DecidableEq, Repr

/-- The in-memory index, map from key to latest location. Modelled as an
association list with unique keys; insertion replaces in place, so the
list order stands in for Go map iteration order in Compact. -/
abbrev Index := List (Key × FileOffset)

def lookupIdx : Index → Key → Option FileOffset
  | [], _ => none
  | (k', v) :: t, k => if k' = k then some v else lookupIdx t k

def setIdx : Index → Key → FileOffset → Index
  | [], k, v => [(k, v)]
  | (k', v') :: t, k, v => if k' = k then (k, v) :: t else (k', v') :: setIdx t k v

/-- Bitcask: the engine state of src/index.go. mmapData is the content of
the memory-mapped active file, dataFiles the contents of the closed
segment files in order. -/
structure Bitcask where
  mmapData : Bytes
  dataFiles : List Bytes
  index : Index
  maxFileSize : Nat
  activeOffset : Nat
deriving DecidableEq, Repr

/-- initActiveFile on a fresh engine: the new file is truncated to
maxSize, hence all zero bytes, and mapped; offset 0, no closed segments,
empty index (src/index.go). -/
def initBitcask (maxSize : Nat) : Bitcask :=
  { mmapData := List.replicate maxSize 0
    dataFiles := []
    index := []
    maxFileSize := maxSize
    activeOffset := 0 }

/-- Go copy(dst[off:], src): writes min(len(dst)-off, len(src)) bytes at
off; the destination keeps its length (the Put write in src/index.go). -/
def writeAt (m : Bytes) (off : Nat) (e : Bytes) : Bytes :=
  m.take off ++ e.take (m.length - off) ++ m.drop (off + e.length)

/-- The header Put builds: checksum of the value payload, uint32 casts of
the timestamp and of the key and value lengths, expiry hard-coded to 0
(src/index.go). -/
def putHeader (k v : Bytes) (t : Nat) : Header :=
  { Checksum := crc32 v
    Timestamp := t % 2 ^ 32
    Expiry := 0
    KeySize := k.length % 2 ^ 32
    ValSize := v.length % 2 ^ 32 }

/-- rotateActiveFile: the written-through mapped file joins the closed
list in full (it was truncated to maxFileSize bytes), a fresh zeroed
active file is created and mapped, the write offset resets; the index is
not touched (src/index.go). -/
def rotateActiveFile (db : Bitcask) : Bitcask :=
  { db with
    dataFiles := db.dataFiles ++ [db.mmapData]
    mmapData := List.replicate db.maxFileSize 0
    activeOffset := 0 }

/-- Put: build the record, encode it, rotate first when it does not fit
after the current offset, copy into the mapped region, point the index at
the active file location, advance the offset (src/index.go). The
timestamp is passed in for time.Now().Unix(). -/
def Put (db : Bitcask) (key value : Bytes) (t : Nat) : Bitcask :=
  let encodedRecord := Record.encode ⟨putHeader key value t, key, value⟩
  let db' := if db.activeOffset + encodedRecord.length > db.maxFileSize
             then rotateActiveFile db else db
  { db' with
    mmapData := writeAt db'.mmapData db'.activeOffset encodedRecord
    index := setIdx db'.index key ⟨-1, (db'.activeOffset : Int)⟩
    activeOffset := db'.activeOffset + encodedRecord.length }

/-- Modelled from the spec: the record decoder (decodeRecord called by
Get, and the record-with-size decoders called by recoverIndex) is absent
from src; spec section 4.1: parse the fixed header first, fail Corrupt
when the buffer is shorter than header width + KeySize + ValSize or when
the recomputed checksum of the value differs from Header.Checksum,
otherwise return the record; the consumed size is the record extent. -/
def decodeRecordSized (data : Bytes) : Except GoErr (Record × Nat) :=
  if data.length < 20 then .error .Corrupt
  else if data.length < 20 + readU32 (data.drop 12) + readU32 (data.drop 16) then
    .error .Corrupt
  else if crc32 ((data.drop (20 + readU32 (data.drop 12))).take (readU32 (data.drop 16)))
          = readU32 data then
    .ok (⟨⟨readU32 data, readU32 (data.drop 4), readU32 (data.drop 8),
           readU32 (data.drop 12), readU32 (data.drop 16)⟩,
          (data.drop 20).take (readU32 (data.drop 12)),
          (data.drop (20 + readU32 (data.drop 12))).take (readU32 (data.drop 16))⟩,
         20 + readU32 (data.drop 12) + readU32 (data.drop 16))
  else .error .Corrupt

/-- Modelled from the spec: decodeRecord as called by Get returns the
record without the consumed size. -/
def decodeRecord (data : Bytes) : Except GoErr Record :=
  (decodeRecordSized data).map Prod.fst

/-- The record bytes Get reads at a location. FileID -1 is a view of the
mapped region from Offset; Go slicing panics (none) when the offset lies
outside the region. Otherwise the closed file is read; Go indexing of
dataFiles panics (none) when FileID is out of range. The src read uses an
undeclared recordSize buffer; modelled from the spec: readAt seeks the
closed file to Offset and reads forward, the codec finding the record
boundary. -/
def bytesAt (db : Bitcask) (off : FileOffset) : Option Bytes :=
  if off.FileID = -1 then
    if 0 ≤ off.Offset ∧ off.Offset ≤ (db.mmapData.length : Int) then
      some (db.mmapData.drop off.Offset.toNat)
    else none
  else
    if 0 ≤ off.FileID ∧ off.FileID < (db.dataFiles.length : Int) then
      some ((db.dataFiles.getD off.FileID.toNat []).drop off.Offset.toNat)
    else none

/-- Get: index lookup (NotFound error when absent), read the record bytes
at the location, decode, return the value; none models a Go panic
(src/index.go). -/
def Get (db : Bitcask) (key : Key) : Option (Except GoErr Bytes) :=
  match lookupIdx db.index key with
  | none => some (.error .NotFound)
  | some off =>
    match bytesAt db off with
    | none => none
    | some recordData => some ((decodeRecord recordData).map Record.Value)

/-- decodeEntry (src/index.go): reads KeySize and ValSize from the first
eight bytes as int32 values and slices the value out directly; none
models the Go panics (slice out of range on short buffers or out-of-range
bounds); no checksum is verified and a nil error accompanies any
returned value. -/
def decodeEntry (data : Bytes) : Option Bytes :=
  if data.length < 8 then none
  else
    let keySize := toInt32 (readU32 data)
    let valueSize := toInt32 (readU32 (data.drop 4))
    if 0 ≤ 8 + keySize ∧ 0 ≤ valueSize ∧ 8 + keySize + valueSize ≤ (data.length : Int) then
      some ((data.drop (8 + keySize).toNat).take valueSize.toNat)
    else none

/-- decodeEntryFromReader (src/index.go): reads the two int32 size fields
(read errors ignored, fields left zero when bytes are missing), skips the
key, then a single Read into a zeroed buffer of ValSize bytes, which
fills what is available and leaves the rest zero; the returned Bool is
the io.EOF error of that Read, raised only when no byte was available and
at least one was requested. A negative ValSize make panics (none). -/
def decodeEntryFromReader (data : Bytes) (pos : Nat) : Option (Bytes × Bool) :=
  let keySize := toInt32 (readU32 (data.drop pos))
  let valueSize := toInt32 (readU32 (data.drop (pos + 4)))
  if valueSize < 0 then none
  else
    let pos2 := if 0 ≤ ((pos + 8 : Nat) : Int) + keySize
                then (((pos + 8 : Nat) : Int) + keySize).toNat else pos + 8
    let rem := data.drop pos2
    let value := rem.take valueSize.toNat ++ List.replicate (valueSize.toNat - rem.length) 0
    some (value, decide (0 < valueSize.toNat) && rem.isEmpty)

/-- Modelled from the spec: encodeEntry is called by Compact but absent
from src; spec section 4.5 re-encodes each live pair as a fresh entry
that the in-src segment decoders read back, so it is the writing inverse
of decodeEntry: KeySize and ValSize as little-endian uint32, then key
bytes, then value bytes. -/
def encodeEntry (key value : Bytes) : Bytes :=
  u32le key.length ++ u32le value.length ++ key ++ value

/-- The Compact loop over the index snapshot: read each live value back
through the in-src entry decoders (their error results discarded, as in
the blank-identifier assignments of src), append the re-encoded entry to
the temp file, record its new offset in the new index. none models a Go
panic during a read. -/
def compactLoop (db : Bitcask) : Index → Bytes → Index → Option (Bytes × Index)
  | [], temp, newIndex => some (temp, newIndex)
  | (key, off) :: rest, temp, newIndex =>
    let value? : Option Bytes :=
      if off.FileID = -1 then
        if 0 ≤ off.Offset ∧ off.Offset ≤ (db.mmapData.length : Int) then
          decodeEntry (db.mmapData.drop off.Offset.toNat)
        else none
      else
        if 0 ≤ off.FileID ∧ off.FileID < (db.dataFiles.length : Int) then
          (decodeEntryFromReader (db.dataFiles.getD off.FileID.toNat []) off.Offset.toNat).map
            Prod.fst
        else none
    match value? with
    | none => none
    | some value =>
      compactLoop db rest (temp ++ encodeEntry key value)
        (setIdx newIndex key ⟨0, (temp.length : Int)⟩)

/-- Compact: snapshot the index, rewrite every live entry into one fresh
temp file, then swap in the single compacted file and the new index; the
mapped region and activeOffset are left as they are (src/index.go). -/
def Compact (db : Bitcask) : Option Bitcask :=
  (compactLoop db db.index [] []).map fun r =>
    { db with dataFiles := [r.1], index := r.2 }

/-- recoverIndex closed-segment loop body: decode records from pos,
stopping cleanly at end of file, fatal on any other decode error
(spec section 4.6; the three-result decoder it calls is absent from src
and modelled by decodeRecordSized). The fuel argument only bounds the
number of loop iterations so the recursion is structural; every
successfully decoded record is at least 20 bytes, so the fuel supplied by
recoverIndex (file length + 1) is never exhausted. -/
def scanFile (file : Bytes) (i : Nat) : Nat → Nat → Index → Except GoErr Index
  | 0, pos, idx => if pos < file.length then .error .Corrupt else .ok idx
  | fuel + 1, pos, idx =>
    if pos < file.length then
      match decodeRecordSized (file.drop pos) with
      | .error e => .error e
      | .ok es =>
        scanFile file i fuel (pos + es.2) (setIdx idx es.1.Key ⟨(i : Int), (pos : Int)⟩)
    else .ok idx

/-- recoverIndex loop over the closed segments in ascending order. -/
def scanFiles : List Bytes → Nat → Index → Except GoErr Index
  | [], _, idx => .ok idx
  | f :: rest, i, idx =>
    match scanFile f i (f.length + 1) 0 idx with
    | .error e => .error e
    | .ok idx2 => scanFiles rest (i + 1) idx2

/-- recoverIndex active-region loop: decode and advance from offset 0
while below activeOffset (src/index.go; the decoder is modelled by
decodeRecordSized as for scanFile). Fuel as in scanFile. -/
def scanActive (mmap : Bytes) (activeOffset : Nat) : Nat → Nat → Index → Except GoErr Index
  | 0, pos, idx => if pos < activeOffset then .error .Corrupt else .ok idx
  | fuel + 1, pos, idx =>
    if pos < activeOffset then
      match decodeRecordSized (mmap.drop pos) with
      | .error e => .error e
      | .ok es =>
        scanActive mmap activeOffset fuel (pos + es.2) (setIdx idx es.1.Key ⟨-1, (pos : Int)⟩)
    else .ok idx

/-- recoverIndex: rebuild the index from every closed segment in file
order then offset order, then from the active region prefix below
activeOffset; any decode error aborts recovery (src/index.go). -/
def recoverIndex (db : Bitcask) : Except GoErr Bitcask :=
  match scanFiles db.dataFiles 0 db.index with
  | .error e => .error e
  | .ok idx1 =>
    match scanActive db.mmapData db.activeOffset (db.activeOffset + 1) 0 idx1 with
    | .error e => .error e
    | .ok idx2 => .ok { db with index := idx2 }

/-- The simulated restart of the crash-recovery property: the in-memory
index is dropped, everything on disk (closed segments, mapped region,
last write offset) survives. -/
def restart (db : Bitcask) : Bitcask :=
  { db with index := [] }

/-- Location well-formedness (claim C9): an active-file location lies
inside the mapped region, a closed location indexes into dataFiles. -/
def FileOffsetWF (db : Bitcask) (off : FileOffset) : Prop :=
  (off.FileID = -1 ∧ 0 ≤ off.Offset ∧ off.Offset < (db.maxFileSize : Int)) ∨
  (0 ≤ off.FileID ∧ off.FileID < (db.dataFiles.length : Int))

/-- Every location stored in the index is well formed. -/
def IndexWF (db : Bitcask) : Prop :=
  ∀ p ∈ db.index, FileOffsetWF db p.2

instance (db : Bitcask) (off : FileOffset) : Decidable (FileOffsetWF db off) := by
  unfold FileOffsetWF; exact inferInstance

instance (db : Bitcask) : Decidable (IndexWF db) := by
  unfold IndexWF; exact List.decidableBAll _ _

/-- A sequence of Put calls, each with its timestamp. -/
def applyPuts (db : Bitcask) (ps : List (Key × Bytes × Nat)) : Bitcask :=
  ps.foldl (fun s p => Put s p.1 p.2.1 p.2.2) db

/-- The encoded record a Put of this triple appends. -/
def encOf (p : Key × Bytes × Nat) : Bytes :=
  Record.encode ⟨putHeader p.1 p.2.1 p.2.2, p.1, p.2.1⟩

/-- The byte image a sequence of Puts appends to the active file. -/
def blob (ps : List (Key × Bytes × Nat)) : Bytes :=
  (ps.map encOf).flatten

/-- The index a sequence of Puts starting at a given offset builds, which
is also the index the recovery scan of those records rebuilds. -/
def buildIdx (idx : Index) (off : Nat) : List (Key × Bytes × Nat) → Index
  | [] => idx
  | p :: rest => buildIdx (setIdx idx p.1 ⟨-1, (off : Int)⟩) (off + (encOf p).length) rest

/-! ### Byte-level helper lemmas about the codec -/

theorem u32le_length (n : Nat) : (u32le n).length = 4 := rfl

theorem drop_four_u32le (n : Nat) (l : Bytes) : (u32le n ++ l).drop 4 = l := rfl

theorem readU32_u32le (n : Nat) (l : Bytes) : readU32 (u32le n ++ l) = n % 2 ^ 32 := by
  simp only [u32le, List.cons_append, List.nil_append, readU32]
  omega

theorem encode_append_eq (h : Header) (r : Bytes) :
    Header.encode h ++ r =
      u32le h.Checksum ++ (u32le h.Timestamp ++ (u32le h.Expiry ++
        (u32le h.KeySize ++ (u32le h.ValSize ++ r)))) := by
  simp [Header.encode, List.append_assoc]

theorem encode_length (h : Header) : (Header.encode h).length = 20 := by
  simp [Header.encode, u32le]

theorem record_encode_length (h : Header) (k v : Bytes) :
    (Record.encode ⟨h, k, v⟩).length = 20 + k.length + v.length := by
  simp [Record.encode, encode_length]
  omega

theorem hdr_read_0 (h : Header) (r : Bytes) :
    readU32 (Header.encode h ++ r) = h.Checksum % 2 ^ 32 := by
  rw [encode_append_eq, readU32_u32le]

theorem hdr_drop_4 (h : Header) (r : Bytes) :
    (Header.encode h ++ r).drop 4 =
      u32le h.Timestamp ++ (u32le h.Expiry ++ (u32le h.KeySize ++ (u32le h.ValSize ++ r))) := by
  rw [encode_append_eq, drop_four_u32le]

theorem hdr_drop_8 (h : Header) (r : Bytes) :
    (Header.encode h ++ r).drop 8 =
      u32le h.Expiry ++ (u32le h.KeySize ++ (u32le h.ValSize ++ r)) := by
  rw [show (8 : Nat) = 4 + 4 from rfl, ← List.drop_drop, hdr_drop_4, drop_four_u32le]

theorem hdr_drop_12 (h : Header) (r : Bytes) :
    (Header.encode h ++ r).drop 12 = u32le h.KeySize ++ (u32le h.ValSize ++ r) := by
  rw [show (12 : Nat) = 8 + 4 from rfl, ← List.drop_drop, hdr_drop_8, drop_four_u32le]

theorem hdr_drop_16 (h : Header) (r : Bytes) :
    (Header.encode h ++ r).drop 16 = u32le h.ValSize ++ r := by
  rw [show (16 : Nat) = 12 + 4 from rfl, ← List.drop_drop, hdr_drop_12, drop_four_u32le]

theorem hdr_drop_20 (h : Header) (r : Bytes) : (Header.encode h ++ r).drop 20 = r := by
  rw [show (20 : Nat) = 16 + 4 from rfl, ← List.drop_drop, hdr_drop_16, drop_four_u32le]

theorem hdr_read_4 (h : Header) (r : Bytes) :
    readU32 ((Header.encode h ++ r).drop 4) = h.Timestamp % 2 ^ 32 := by
  rw [hdr_drop_4, readU32_u32le]

theorem hdr_read_8 (h : Header) (r : Bytes) :
    readU32 ((Header.encode h ++ r).drop 8) = h.Expiry % 2 ^ 32 := by
  rw [hdr_drop_8, readU32_u32le]

theorem hdr_read_12 (h : Header) (r : Bytes) :
    readU32 ((Header.encode h ++ r).drop 12) = h.KeySize % 2 ^ 32 := by
  rw [hdr_drop_12, readU32_u32le]

theorem hdr_read_16 (h : Header) (r : Bytes) :
    readU32 ((Header.encode h ++ r).drop 16) = h.ValSize % 2 ^ 32 := by
  rw [hdr_drop_16, readU32_u32le]

theorem crc32_lt (l : Bytes) : crc32 l < 2 ^ 32 := by
  unfold crc32
  exact Nat.mod_lt _ (by norm_num)

/-- Decoding the encoding of a well-sized record succeeds exactly when the
stored checksum matches the recomputed checksum of the value, and
consumes exactly the record extent, whatever trailing bytes follow. -/
theorem decodeRecordSized_encode (h : Header) (k v r : Bytes)
    (hks : h.KeySize = k.length) (hvs : h.ValSize = v.length)
    (hkb : k.length < 2 ^ 32) (hvb : v.length < 2 ^ 32)
    (hc : h.Checksum < 2 ^ 32) (ht : h.Timestamp < 2 ^ 32) (hx : h.Expiry < 2 ^ 32) :
    decodeRecordSized (Header.encode h ++ (k ++ (v ++ r)))
      = if crc32 v = h.Checksum then
          .ok (⟨h, k, v⟩, 20 + k.length + v.length)
        else .error .Corrupt := by
  have hlen : (Header.encode h ++ (k ++ (v ++ r))).length
      = 20 + (k.length + (v.length + r.length)) := by
    simp [encode_length]
  have e0 : readU32 (Header.encode h ++ (k ++ (v ++ r))) = h.Checksum := by
    rw [hdr_read_0, Nat.mod_eq_of_lt hc]
  have e12 : readU32 ((Header.encode h ++ (k ++ (v ++ r))).drop 12) = k.length := by
    rw [hdr_read_12, hks, Nat.mod_eq_of_lt hkb]
  have e16 : readU32 ((Header.encode h ++ (k ++ (v ++ r))).drop 16) = v.length := by
    rw [hdr_read_16, hvs, Nat.mod_eq_of_lt hvb]
  have e20 : (Header.encode h ++ (k ++ (v ++ r))).drop 20 = k ++ (v ++ r) := hdr_drop_20 h _
  have e20k : (Header.encode h ++ (k ++ (v ++ r))).drop (20 + k.length) = v ++ r := by
    rw [← List.drop_drop, e20, List.drop_left]
  have ekey : ((Header.encode h ++ (k ++ (v ++ r))).drop 20).take k.length = k := by
    rw [e20, List.take_left]
  have eval2 : ((Header.encode h ++ (k ++ (v ++ r))).drop (20 + k.length)).take v.length = v := by
    rw [e20k, List.take_left]
  have e4 : readU32 ((Header.encode h ++ (k ++ (v ++ r))).drop 4) = h.Timestamp := by
    rw [hdr_read_4, Nat.mod_eq_of_lt ht]
  have e8 : readU32 ((Header.encode h ++ (k ++ (v ++ r))).drop 8) = h.Expiry := by
    rw [hdr_read_8, Nat.mod_eq_of_lt hx]
  unfold decodeRecordSized
  rw [e12, e16, ekey, eval2, e0, e4, e8, hlen]
  rw [if_neg (by omega), if_neg (by omega)]
  have hh : (⟨h.Checksum, h.Timestamp, h.Expiry, k.length, v.length⟩ : Header) = h := by
    cases h
    simp_all
  rw [hh]

theorem decodeRecord_ne_notFound (data : Bytes) :
    (decodeRecord data).map Record.Value ≠ .error .NotFound := by
  unfold decodeRecord decodeRecordSized
  split
  · simp [Except.map]
  · split
    · simp [Except.map]
    · split <;> simp [Except.map]

theorem decodeRecordSized_ok_facts {data : Bytes} {es : Record × Nat}
    (h : decodeRecordSized data = .ok es) : 20 ≤ es.2 ∧ es.2 ≤ data.length := by
  unfold decodeRecordSized at h
  split at h
  · exact absurd h (by simp)
  · split at h
    · exact absurd h (by simp)
    · split at h
      · rw [Except.ok.injEq] at h
        rw [← h]
        omega
      · exact absurd h (by simp)

/-! ### Lemmas about the association-list index -/

theorem lookupIdx_setIdx_self (idx : Index) (k : Key) (v : FileOffset) :
    lookupIdx (setIdx idx k v) k = some v := by
  induction idx with
  | nil => simp [setIdx, lookupIdx]
  | cons p t ih =>
    obtain ⟨k', v'⟩ := p
    by_cases h : k' = k
    · simp [setIdx, h, lookupIdx]
    · simp [setIdx, h, lookupIdx, ih]

theorem lookupIdx_setIdx_ne (idx : Index) (k k' : Key) (v : FileOffset) (h : k ≠ k') :
    lookupIdx (setIdx idx k v) k' = lookupIdx idx k' := by
  induction idx with
  | nil => simp [setIdx, lookupIdx, h]
  | cons p t ih =>
    obtain ⟨k1, v1⟩ := p
    by_cases h1 : k1 = k
    · subst h1
      simp [setIdx, lookupIdx, h]
    · simp only [setIdx, if_neg h1, lookupIdx]
      by_cases h2 : k1 = k'
      · simp [h2]
      · simp [h2, ih]

theorem mem_setIdx {idx : Index} {k : Key} {v : FileOffset} :
    ∀ p ∈ setIdx idx k v, p = (k, v) ∨ p ∈ idx := by
  induction idx with
  | nil => simp [setIdx]
  | cons q t ih =>
    obtain ⟨k1, v1⟩ := q
    by_cases h1 : k1 = k
    · simp only [setIdx, if_pos h1]
      intro p hp
      rcases List.mem_cons.mp hp with hp | hp
      · exact Or.inl hp
      · exact Or.inr (List.mem_cons_of_mem _ hp)
    · simp only [setIdx, if_neg h1]
      intro p hp
      rcases List.mem_cons.mp hp with hp | hp
      · exact Or.inr (hp ▸ List.mem_cons_self _ _)
      · rcases ih p hp with h | h
        · exact Or.inl h
        · exact Or.inr (List.mem_cons_of_mem _ h)

theorem lookupIdx_mem {idx : Index} {k : Key} {v : FileOffset}
    (h : lookupIdx idx k = some v) : (k, v) ∈ idx := by
  induction idx with
  | nil => simp [lookupIdx] at h
  | cons q t ih =>
    obtain ⟨k1, v1⟩ := q
    by_cases h1 : k1 = k
    · subst h1
      simp [lookupIdx] at h
      simp [h]
    · simp [lookupIdx, h1] at h
      exact List.mem_cons_of_mem _ (ih h)

/-! ### Lemmas about the mapped-region write -/

theorem writeAt_length (m e : Bytes) (off : Nat) (h : off + e.length ≤ m.length) :
    (writeAt m off e).length = m.length := by
  simp [writeAt]
  omega

theorem writeAt_drop (m e : Bytes) (off : Nat) (hfit : off + e.length ≤ m.length) :
    (writeAt m off e).drop off = e ++ m.drop (off + e.length) := by
  unfold writeAt
  rw [List.take_of_length_le (show e.length ≤ m.length - off by omega), List.append_assoc,
      List.drop_left' (show (m.take off).length = off by rw [List.length_take]; omega)]

theorem writeAt_fits (B : Bytes) (p : Nat) (e : Bytes) (he : e.length ≤ p) :
    writeAt (B ++ List.replicate p 0) B.length e
      = (B ++ e) ++ List.replicate (p - e.length) 0 := by
  unfold writeAt
  rw [List.take_left, List.length_append, List.length_replicate,
      Nat.add_sub_cancel_left, List.take_of_length_le he, ← List.drop_drop,
      List.drop_left, List.drop_replicate, List.append_assoc]

theorem decodeRecordSized_putRecord (k v : Bytes) (t : Nat) (r : Bytes)
    (hkb : k.length < 2 ^ 32) (hvb : v.length < 2 ^ 32) :
    decodeRecordSized (Record.encode ⟨putHeader k v t, k, v⟩ ++ r)
      = .ok (⟨putHeader k v t, k, v⟩, 20 + k.length + v.length) := by
  have hassoc : Record.encode ⟨putHeader k v t, k, v⟩ ++ r
      = Header.encode (putHeader k v t) ++ (k ++ (v ++ r)) := by
    simp [Record.encode, List.append_assoc]
  rw [hassoc,
      decodeRecordSized_encode (putHeader k v t) k v r
        (by simp [putHeader]; omega)
        (by simp [putHeader]; omega)
        hkb hvb (crc32_lt v) (Nat.mod_lt _ (by norm_num)) (by simp [putHeader])]
  simp [putHeader]

theorem writeAt_extract (m e : Bytes) (off : Nat) (hfit : off + e.length ≤ m.length) :
    ((writeAt m off e).drop off).take e.length = e := by
  rw [writeAt_drop m e off hfit, List.take_left]

/-- After a write of the encoded Put record into a region of length
maxFileSize at an offset where it fits, Get of that key returns the
value. -/
theorem get_put_core (m : Bytes) (df : List Bytes) (idx : Index) (mF aOff extra : Nat)
    (k v : Bytes) (t : Nat)
    (hkb : k.length < 2 ^ 32) (hvb : v.length < 2 ^ 32)
    (hfit : aOff + (Record.encode ⟨putHeader k v t, k, v⟩).length ≤ m.length) :
    Get { mmapData := writeAt m aOff (Record.encode ⟨putHeader k v t, k, v⟩)
          dataFiles := df
          index := setIdx idx k ⟨-1, (aOff : Int)⟩
          maxFileSize := mF
          activeOffset := extra } k
      = some (.ok v) := by
  simp only [Get, lookupIdx_setIdx_self]
  have hlen : (writeAt m aOff (Record.encode ⟨putHeader k v t, k, v⟩)).length = m.length :=
    writeAt_length _ _ _ hfit
  have hguard : (0 : Int) ≤ (aOff : Int) ∧ (aOff : Int) ≤
      ((writeAt m aOff (Record.encode ⟨putHeader k v t, k, v⟩)).length : Nat) := by
    constructor
    · exact Int.natCast_nonneg _
    · rw [hlen]
      exact_mod_cast Nat.le_of_add_right_le hfit
  simp only [bytesAt, hguard, and_self, if_pos, reduceIte, Int.toNat_natCast]
  rw [writeAt_drop _ _ _ hfit]
  unfold decodeRecord
  rw [decodeRecordSized_putRecord k v t _ hkb hvb]
  rfl

/-! ### Counterexample and code-bug evaluations -/

/-- Claim C1, counterexample: Put of key [97] with value [1], then a Put
of the distinct key [98] (allowed by the claim, which only excludes
intervening writes to [97]) that triggers a rotation, then Get of [97]
does not return [1]: the stale FileID -1 location now points into the
fresh mapped region, where the record of [98] lies, so Get returns
[2, 3] instead. -/
theorem claim1_counterexample :
    Get (Put (Put (initBitcask 42) [97] [1] 0) [98] [2, 3] 0) [97] ≠ some (.ok [1]) := by
  decide

/-- Claim C2, counterexample: after the same two Puts with a rotation in
between, the key [97] is live, and before the restart its location
decodes to [2, 3] (stale active-file location); the recovery rebuild maps
it to the closed segment, where it decodes to [1]. The rebuilt location
therefore does not decode to the same value as before the restart. -/
theorem claim2_counterexample :
    Get (Put (Put (initBitcask 42) [97] [1] 0) [98] [2, 3] 0) [97] = some (.ok [2, 3]) ∧
    (recoverIndex (restart (Put (Put (initBitcask 42) [97] [1] 0) [98] [2, 3] 0))).map
      (fun db => Get db [97]) = .ok (some (.ok [1])) := by
  decide

/-- Claim C3, failing input: a state whose single closed segment holds the
entry-format bytes for key [97] and value [7] (KeySize 1, ValSize 1, then
key and value). Compact succeeds, the closed-segment list has exactly one
file, and the new index maps exactly the snapshot key — yet the
subsequent Get fails with Corrupt instead of returning the value, because
Compact wrote the 8-byte entry layout while Get decodes the 20-byte
record layout. -/
theorem claim3_code_bug :
    Compact ⟨[], [[1, 0, 0, 0, 1, 0, 0, 0, 97, 7]], [([97], ⟨0, 0⟩)], 0, 0⟩
      = some ⟨[], [[1, 0, 0, 0, 1, 0, 0, 0, 97, 7]], [([97], ⟨0, 0⟩)], 0, 0⟩ ∧
    Get ⟨[], [[1, 0, 0, 0, 1, 0, 0, 0, 97, 7]], [([97], ⟨0, 0⟩)], 0, 0⟩ [97]
      = some (.error .Corrupt) := by
  decide

/-- Claim C4, counterexample: with maxFileSize 8, a Put whose encoded
record is 21 bytes triggers a rotation (the size check fires) but the
copy into the fresh 8-byte region is truncated: the mapped region does
not contain the record, so the write is partial, contrary to the claim
that the write is always fully contained even when the record exceeds
maxSegmentSize. -/
theorem claim4_counterexample :
    (Put (initBitcask 8) [] [1] 0).dataFiles.length = 1 ∧
    lookupIdx (Put (initBitcask 8) [] [1] 0).index [] = some ⟨-1, 0⟩ ∧
    (Put (initBitcask 8) [] [1] 0).mmapData.take
        (Record.encode ⟨putHeader [] [1] 0, [], [1]⟩).length
      ≠ Record.encode ⟨putHeader [] [1] 0, [], [1]⟩ := by
  decide

/-- Claim C5, failing inputs: decodeEntry on a buffer shorter than its
sizes demand panics (slice out of range, modelled none) instead of
returning a Corrupt error; and on a full record whose stored checksum
does not match its value bytes it also panics (it misreads the checksum
field as a key size) instead of reporting the corruption. -/
theorem claim5_code_bug :
    decodeEntry [1, 0, 0, 0, 1, 0, 0, 0] = none ∧
    decodeEntry (Record.encode ⟨putHeader [97] [7] 0, [97], [8]⟩) = none := by
  decide

/-- Claim C7, counterexample: decodeEntry applied to the encoding of the
record with key [97] and value [7] does not recover the value [7]; it
interprets the first eight bytes as KeySize and ValSize (an 8-byte
layout), not as the Checksum and Timestamp of the 20-byte record layout
the encoder used, and panics on the resulting out-of-range slice. -/
theorem claim7_counterexample :
    decodeEntry (Record.encode ⟨putHeader [97] [7] 0, [97], [7]⟩) ≠ some [7] := by
  decide

/-- Claim C8, counterexample: reading an entry whose header promises one
value byte from a file that ends right there yields the zeroed buffer
together with an io.EOF error — and Compact, which discards that error
with a blank identifier, still returns success and records the zero value
in the compacted file instead of surfacing the failure. -/
theorem claim8_counterexample :
    decodeEntryFromReader [0, 0, 0, 0, 1, 0, 0, 0] 0 = some ([0], true) ∧
    Compact ⟨[], [[0, 0, 0, 0, 1, 0, 0, 0]], [([107], ⟨0, 0⟩)], 0, 0⟩
      = some ⟨[], [[1, 0, 0, 0, 1, 0, 0, 0, 107, 0]], [([107], ⟨0, 0⟩)], 0, 0⟩ := by
  decide

/-! ### Claim C1: Put-then-Get round trip -/

/-- Claim C1 (amended): for every engine state whose mapped region has
length maxFileSize, and every key K and value V whose encoded record fits
in a segment (20 + |K| + |V| ≤ maxFileSize, lengths below 2^32), a Put of
(K, V) immediately followed by a Get of K returns exactly V. (As stated
the claim fails: an oversized record is truncated by the copy, and an
intervening Put to another key can rotate the active file and leave the
location of K stale.) -/
theorem claim1_amended (db : Bitcask) (k v : Bytes) (t : Nat)
    (hwf : db.mmapData.length = db.maxFileSize)
    (hkb : k.length < 2 ^ 32) (hvb : v.length < 2 ^ 32)
    (hfit : 20 + k.length + v.length ≤ db.maxFileSize) :
    Get (Put db k v t) k = some (.ok v) := by
  have hel := record_encode_length (putHeader k v t) k v
  by_cases hrot : db.activeOffset + (Record.encode ⟨putHeader k v t, k, v⟩).length
      > db.maxFileSize
  · have hput : Put db k v t =
        { mmapData := writeAt (List.replicate db.maxFileSize 0) 0
            (Record.encode ⟨putHeader k v t, k, v⟩)
          dataFiles := db.dataFiles ++ [db.mmapData]
          index := setIdx db.index k ⟨-1, (0 : Nat)⟩
          maxFileSize := db.maxFileSize
          activeOffset := 0 + (Record.encode ⟨putHeader k v t, k, v⟩).length } := by
      simp [Put, rotateActiveFile, if_pos hrot]
    rw [hput]
    exact get_put_core _ _ _ _ _ _ k v t hkb hvb (by simp [hel]; omega)
  · have hput : Put db k v t =
        { mmapData := writeAt db.mmapData db.activeOffset
            (Record.encode ⟨putHeader k v t, k, v⟩)
          dataFiles := db.dataFiles
          index := setIdx db.index k ⟨-1, (db.activeOffset : Nat)⟩
          maxFileSize := db.maxFileSize
          activeOffset := db.activeOffset + (Record.encode ⟨putHeader k v t, k, v⟩).length } := by
      simp [Put, if_neg hrot]
    rw [hput]
    exact get_put_core _ _ _ _ _ _ k v t hkb hvb (by rw [hel, hwf]; omega)

/-- Claim C1 witness: a concrete instance of the amended round trip. -/
theorem claim1_amended_witness :
    Get (Put (initBitcask 30) [97] [7] 0) [97] = some (.ok [7]) :=
  claim1_amended (initBitcask 30) [97] [7] 0 (by decide) (by decide) (by decide) (by decide)

/-! ### Claim C4: rotation condition and full containment -/

/-- Claim C4 (amended): rotation happens on a Put exactly when
currentOffset + len(record) > maxSegmentSize; and whenever the encoded
record itself is no larger than maxSegmentSize, the subsequent write is
fully contained within the mapped region at the indexed offset (never
partial, never split across the rotation boundary). (As stated the claim
fails: when the record alone exceeds maxSegmentSize the copy after the
forced rotation is truncated, so the write is partial.) -/
theorem claim4_amended (db : Bitcask) (k v : Bytes) (t : Nat)
    (hwf : db.mmapData.length = db.maxFileSize)
    (hfit : 20 + k.length + v.length ≤ db.maxFileSize) :
    (db.activeOffset + (20 + k.length + v.length) > db.maxFileSize →
       (Put db k v t).dataFiles.length = db.dataFiles.length + 1 ∧
       lookupIdx (Put db k v t).index k = some ⟨-1, 0⟩ ∧
       (Put db k v t).mmapData.take (20 + k.length + v.length)
         = Record.encode ⟨putHeader k v t, k, v⟩) ∧
    (db.activeOffset + (20 + k.length + v.length) ≤ db.maxFileSize →
       (Put db k v t).dataFiles = db.dataFiles ∧
       lookupIdx (Put db k v t).index k = some ⟨-1, (db.activeOffset : Int)⟩ ∧
       ((Put db k v t).mmapData.drop db.activeOffset).take (20 + k.length + v.length)
         = Record.encode ⟨putHeader k v t, k, v⟩) := by
  have hel := record_encode_length (putHeader k v t) k v
  constructor
  · intro hrot
    have hrot' : db.activeOffset + (Record.encode ⟨putHeader k v t, k, v⟩).length
        > db.maxFileSize := by rw [hel]; exact hrot
    have hput : Put db k v t =
        { mmapData := writeAt (List.replicate db.maxFileSize 0) 0
            (Record.encode ⟨putHeader k v t, k, v⟩)
          dataFiles := db.dataFiles ++ [db.mmapData]
          index := setIdx db.index k ⟨-1, (0 : Nat)⟩
          maxFileSize := db.maxFileSize
          activeOffset := 0 + (Record.encode ⟨putHeader k v t, k, v⟩).length } := by
      simp [Put, rotateActiveFile, if_pos hrot']
    rw [hput]
    refine ⟨by simp, lookupIdx_setIdx_self _ _ _, ?_⟩
    have hx := writeAt_extract (List.replicate db.maxFileSize 0)
      (Record.encode ⟨putHeader k v t, k, v⟩) 0 (by simp [hel]; omega)
    rw [List.drop_zero] at hx
    rw [← hel]
    exact hx
  · intro hle
    have hrot' : ¬ db.activeOffset + (Record.encode ⟨putHeader k v t, k, v⟩).length
        > db.maxFileSize := by rw [hel]; omega
    have hput : Put db k v t =
        { mmapData := writeAt db.mmapData db.activeOffset
            (Record.encode ⟨putHeader k v t, k, v⟩)
          dataFiles := db.dataFiles
          index := setIdx db.index k ⟨-1, (db.activeOffset : Nat)⟩
          maxFileSize := db.maxFileSize
          activeOffset := db.activeOffset + (Record.encode ⟨putHeader k v t, k, v⟩).length } := by
      simp [Put, if_neg hrot']
    rw [hput]
    refine ⟨rfl, lookupIdx_setIdx_self _ _ _, ?_⟩
    rw [← hel]
    exact writeAt_extract db.mmapData _ db.activeOffset (by rw [hel, hwf]; omega)

/-- Claim C4 witness: a concrete instance of the amended rotation and
containment property, in the no-rotation branch. -/
theorem claim4_amended_witness :
    (Put (initBitcask 30) [97] [7] 0).dataFiles = (initBitcask 30).dataFiles ∧
    lookupIdx (Put (initBitcask 30) [97] [7] 0).index [97] = some ⟨-1, (0 : Int)⟩ ∧
    ((Put (initBitcask 30) [97] [7] 0).mmapData.drop 0).take 22
      = Record.encode ⟨putHeader [97] [7] 0, [97], [7]⟩ :=
  (claim4_amended (initBitcask 30) [97] [7] 0 (by decide) (by decide)).2 (by decide)

/-! ### Claim C6: the Get contract -/

/-- Claim C6: Get fails with NotFound exactly when the key is absent from
the index; and when the key is present and the bytes at the indexed
location hold a well-formed record, Get decodes that record and returns
its value, failing with Corrupt exactly when the recomputed checksum of
the stored value differs from the stored checksum. -/
theorem claim6_get_contract (db : Bitcask) (k : Key) :
    (Get db k = some (.error .NotFound) ↔ lookupIdx db.index k = none) ∧
    (∀ (off : FileOffset) (c t x : Nat) (key v rest : Bytes),
       lookupIdx db.index k = some off →
       bytesAt db off
         = some (Header.encode ⟨c, t, x, key.length, v.length⟩ ++ (key ++ (v ++ rest))) →
       key.length < 2 ^ 32 → v.length < 2 ^ 32 → c < 2 ^ 32 → t < 2 ^ 32 → x < 2 ^ 32 →
       Get db k = some (if crc32 v = c then Except.ok v else Except.error GoErr.Corrupt)) := by
  constructor
  · cases h : lookupIdx db.index k with
    | none => simp [Get, h]
    | some off =>
      simp only [Get, h]
      constructor
      · intro hg
        exfalso
        cases hb : bytesAt db off with
        | none => rw [hb] at hg; exact Option.noConfusion hg
        | some rd =>
          rw [hb] at hg
          rw [Option.some.injEq] at hg
          exact decodeRecord_ne_notFound rd hg
      · intro hn
        exact Option.noConfusion hn
  · intro off c t x key v rest hoff hbytes hkb hvb hc ht hx
    simp only [Get, hoff]
    rw [hbytes]
    unfold decodeRecord
    dsimp only
    rw [decodeRecordSized_encode ⟨c, t, x, key.length, v.length⟩ key v rest rfl rfl
          hkb hvb hc ht hx]
    split <;> simp [Except.map]

/-- Claim C6 witness: on the state reached by one Put, Get returns the
checksum-guarded value at the indexed location. -/
theorem claim6_get_contract_witness :
    Get (Put (initBitcask 50) [97] [7] 0) [97]
      = some (if crc32 [7] = crc32 [7] then Except.ok [7] else Except.error GoErr.Corrupt) :=
  (claim6_get_contract (Put (initBitcask 50) [97] [7] 0) [97]).2 ⟨-1, 0⟩ (crc32 [7]) 0 0
    [97] [7] (List.replicate 28 0) (by decide) (by decide) (by decide) (by decide)
    (by decide) (by decide) (by decide)

/-! ### Claim C9: the location invariant -/

theorem setIdx_forall {P : Key × FileOffset → Prop} {idx : Index} {k : Key} {v : FileOffset}
    (hidx : ∀ p ∈ idx, P p) (hv : P (k, v)) : ∀ p ∈ setIdx idx k v, P p := by
  intro p hp
  rcases mem_setIdx p hp with h | h
  · exact h ▸ hv
  · exact hidx p h

theorem FileOffsetWF_mono {db db' : Bitcask} (hm : db.maxFileSize = db'.maxFileSize)
    (hd : db.dataFiles.length ≤ db'.dataFiles.length) {off : FileOffset}
    (h : FileOffsetWF db off) : FileOffsetWF db' off := by
  unfold FileOffsetWF at h ⊢
  rcases h with ⟨h1, h2, h3⟩ | ⟨h1, h2⟩
  · exact Or.inl ⟨h1, h2, by rw [hm] at h3; exact h3⟩
  · exact Or.inr ⟨h1, lt_of_lt_of_le h2 (by exact_mod_cast hd)⟩

theorem scanFile_forall (P : Key × FileOffset → Prop) (file : Bytes) (i : Nat)
    (hP : ∀ (k : Key) (pos : Nat), P (k, ⟨(i : Int), (pos : Int)⟩)) :
    ∀ (fuel pos : Nat) (idx idx' : Index), (∀ p ∈ idx, P p) →
      scanFile file i fuel pos idx = .ok idx' → ∀ p ∈ idx', P p := by
  intro fuel
  induction fuel with
  | zero =>
    intro pos idx idx' hidx h
    simp only [scanFile] at h
    split at h
    · exact absurd h (by simp)
    · rw [Except.ok.injEq] at h
      exact h ▸ hidx
  | succ n ih =>
    intro pos idx idx' hidx h
    simp only [scanFile] at h
    split at h
    · cases hdec : decodeRecordSized (file.drop pos) with
      | error e => rw [hdec] at h; simp at h
      | ok es =>
        rw [hdec] at h
        exact ih _ _ _ (setIdx_forall hidx (hP _ _)) h
    · rw [Except.ok.injEq] at h
      exact h ▸ hidx

theorem scanFiles_forall (P : Key × FileOffset → Prop) :
    ∀ (files : List Bytes) (i : Nat) (idx idx' : Index),
      (∀ p ∈ idx, P p) →
      (∀ (k : Key) (j pos : Nat), i ≤ j → j < i + files.length →
        P (k, ⟨(j : Int), (pos : Int)⟩)) →
      scanFiles files i idx = .ok idx' → ∀ p ∈ idx', P p := by
  intro files
  induction files with
  | nil =>
    intro i idx idx' hidx _ h
    simp only [scanFiles] at h
    rw [Except.ok.injEq] at h
    exact h ▸ hidx
  | cons f rest ih =>
    intro i idx idx' hidx hP h
    simp only [scanFiles] at h
    cases hsf : scanFile f i (f.length + 1) 0 idx with
    | error e => rw [hsf] at h; simp at h
    | ok idx2 =>
      rw [hsf] at h
      have hidx2 : ∀ p ∈ idx2, P p :=
        scanFile_forall P f i
          (fun k pos => hP k i pos (Nat.le_refl i) (by simp)) _ _ _ _ hidx hsf
      exact ih (i + 1) idx2 idx' hidx2
        (fun k j pos hj1 hj2 => hP k j pos (by omega) (by simp at hj2 ⊢; omega)) h

theorem scanActive_forall (P : Key × FileOffset → Prop) (mmap : Bytes) (aOff : Nat)
    (hP : ∀ (k : Key) (pos : Nat), pos + 20 ≤ mmap.length → P (k, ⟨-1, (pos : Int)⟩)) :
    ∀ (fuel pos : Nat) (idx idx' : Index), (∀ p ∈ idx, P p) →
      scanActive mmap aOff fuel pos idx = .ok idx' → ∀ p ∈ idx', P p := by
  intro fuel
  induction fuel with
  | zero =>
    intro pos idx idx' hidx h
    simp only [scanActive] at h
    split at h
    · exact absurd h (by simp)
    · rw [Except.ok.injEq] at h
      exact h ▸ hidx
  | succ n ih =>
    intro pos idx idx' hidx h
    simp only [scanActive] at h
    split at h
    · cases hdec : decodeRecordSized (mmap.drop pos) with
      | error e => rw [hdec] at h; simp at h
      | ok es =>
        rw [hdec] at h
        have hin : pos + 20 ≤ mmap.length := by
          have hf := decodeRecordSized_ok_facts hdec
          rw [List.length_drop] at hf
          omega
        exact ih _ _ _ (setIdx_forall hidx (hP _ _ hin)) h
    · rw [Except.ok.injEq] at h
      exact h ▸ hidx

theorem compactLoop_forall (db : Bitcask) :
    ∀ (snap : Index) (temp : Bytes) (nidx : Index) (tf : Bytes) (ni : Index),
      compactLoop db snap temp nidx = some (tf, ni) →
      (∀ p ∈ nidx, p.2.FileID = 0 ∧ 0 ≤ p.2.Offset) →
      ∀ p ∈ ni, p.2.FileID = 0 ∧ 0 ≤ p.2.Offset := by
  intro snap
  induction snap with
  | nil =>
    intro temp nidx tf ni h hn
    simp only [compactLoop, Option.some.injEq, Prod.mk.injEq] at h
    exact h.2 ▸ hn
  | cons q rest ih =>
    intro temp nidx tf ni h hn
    obtain ⟨key, off⟩ := q
    simp only [compactLoop] at h
    split at h
    · exact absurd h (by simp)
    · exact ih _ _ _ _ h
        (setIdx_forall hn ⟨rfl, Int.natCast_nonneg _⟩)

/-- Claim C9: in a well-formed state the location invariant — every
indexed FileOffset either has FileID -1 with an Offset inside the mapped
region, or a FileID indexing into dataFiles — is preserved by Put, by a
succeeding Compact and by a succeeding recoverIndex, and under it Get
never indexes out of bounds (never panics). -/
theorem claim9_location_invariant (db : Bitcask)
    (hwf : db.mmapData.length = db.maxFileSize)
    (hpos : 0 < db.maxFileSize)
    (hidx : IndexWF db) :
    (∀ (k v : Bytes) (t : Nat), IndexWF (Put db k v t)) ∧
    (∀ db', Compact db = some db' → IndexWF db') ∧
    (∀ db', recoverIndex db = .ok db' → IndexWF db') ∧
    (∀ k : Key, Get db k ≠ none) := by
  refine ⟨?_, ?_, ?_, ?_⟩
  · intro k v t
    have hel := record_encode_length (putHeader k v t) k v
    by_cases hrot : db.activeOffset + (Record.encode ⟨putHeader k v t, k, v⟩).length
        > db.maxFileSize
    · have hput : Put db k v t =
          { mmapData := writeAt (List.replicate db.maxFileSize 0) 0
              (Record.encode ⟨putHeader k v t, k, v⟩)
            dataFiles := db.dataFiles ++ [db.mmapData]
            index := setIdx db.index k ⟨-1, (0 : Nat)⟩
            maxFileSize := db.maxFileSize
            activeOffset := 0 + (Record.encode ⟨putHeader k v t, k, v⟩).length } := by
        simp [Put, rotateActiveFile, if_pos hrot]
      rw [hput]
      unfold IndexWF
      refine setIdx_forall (fun p hp => ?_) ?_
      · refine FileOffsetWF_mono ?_ ?_ (hidx p hp)
        · rfl
        · simp
      · refine Or.inl ⟨rfl, by simp, ?_⟩
        show (0 : Int) < (db.maxFileSize : Int)
        exact_mod_cast hpos
    · have hput : Put db k v t =
          { mmapData := writeAt db.mmapData db.activeOffset
              (Record.encode ⟨putHeader k v t, k, v⟩)
            dataFiles := db.dataFiles
            index := setIdx db.index k ⟨-1, (db.activeOffset : Nat)⟩
            maxFileSize := db.maxFileSize
            activeOffset := db.activeOffset + (Record.encode ⟨putHeader k v t, k, v⟩).length } := by
        simp [Put, if_neg hrot]
      rw [hput]
      unfold IndexWF
      refine setIdx_forall (fun p hp => ?_) ?_
      · refine FileOffsetWF_mono ?_ ?_ (hidx p hp)
        · rfl
        · exact Nat.le_refl _
      · refine Or.inl ⟨rfl, by simp, ?_⟩
        show ((db.activeOffset : Nat) : Int) < (db.maxFileSize : Int)
        have : db.activeOffset < db.maxFileSize := by omega
        exact_mod_cast this
  · intro db' h
    unfold Compact at h
    cases hcl : compactLoop db db.index [] [] with
    | none => rw [hcl] at h; simp at h
    | some r =>
      rw [hcl] at h
      rw [Option.map_some', Option.some.injEq] at h
      have hni : ∀ p ∈ r.2, p.2.FileID = 0 ∧ 0 ≤ p.2.Offset :=
        compactLoop_forall db db.index [] [] r.1 r.2 (by rw [hcl]) (by simp)
      rw [← h]
      unfold IndexWF
      intro p hp
      rcases hni p hp with ⟨h1, h2⟩
      exact Or.inr ⟨by rw [h1], by rw [h1]; simp⟩
  · intro db' h
    unfold recoverIndex at h
    cases hsf : scanFiles db.dataFiles 0 db.index with
    | error e => rw [hsf] at h; simp at h
    | ok idx1 =>
      rw [hsf] at h
      dsimp only at h
      cases hsa : scanActive db.mmapData db.activeOffset (db.activeOffset + 1) 0 idx1 with
      | error e => rw [hsa] at h; simp at h
      | ok idx2 =>
        rw [hsa] at h
        dsimp only at h
        rw [Except.ok.injEq] at h
        have hidx1 : ∀ p ∈ idx1, FileOffsetWF db p.2 :=
          scanFiles_forall (fun p => FileOffsetWF db p.2) db.dataFiles 0 db.index idx1
            hidx
            (fun k j pos _ hj2 => Or.inr ⟨Int.natCast_nonneg _, by
              show ((j : Nat) : Int) < ((db.dataFiles.length : Nat) : Int)
              exact_mod_cast (by omega : j < db.dataFiles.length)⟩)
            hsf
        have hidx2 : ∀ p ∈ idx2, FileOffsetWF db p.2 :=
          scanActive_forall (fun p => FileOffsetWF db p.2) db.mmapData db.activeOffset
            (fun k pos hin => Or.inl ⟨rfl, Int.natCast_nonneg _, by
              show ((pos : Nat) : Int) < ((db.maxFileSize : Nat) : Int)
              have : pos < db.maxFileSize := by omega
              exact_mod_cast this⟩)
            _ _ _ _ hidx1 hsa
        rw [← h]
        unfold IndexWF
        intro p hp
        refine FileOffsetWF_mono ?_ ?_ (hidx2 p hp)
        · rfl
        · exact Nat.le_refl _
  · intro k
    cases hl : lookupIdx db.index k with
    | none => simp [Get, hl]
    | some off =>
      have hwfo : FileOffsetWF db off := hidx _ (lookupIdx_mem hl)
      unfold Get
      rw [hl]
      dsimp only
      rcases hwfo with ⟨h1, h2, h3⟩ | ⟨h1, h2⟩
      · have hb : bytesAt db off = some (db.mmapData.drop off.Offset.toNat) := by
          unfold bytesAt
          rw [if_pos h1, if_pos ⟨h2, by rw [hwf]; omega⟩]
        rw [hb]
        simp
      · have hb : bytesAt db off
            = some ((db.dataFiles.getD off.FileID.toNat []).drop off.Offset.toNat) := by
          unfold bytesAt
          rw [if_neg (by omega), if_pos ⟨h1, h2⟩]
        rw [hb]
        simp

/-- Claim C9 witness: the invariant is preserved by a concrete Put on a
concrete well-formed state. -/
theorem claim9_location_invariant_witness :
    IndexWF (Put (initBitcask 30) [97] [7] 0) :=
  (claim9_location_invariant (initBitcask 30) (by decide) (by decide) (by decide)).1 [97] [7] 0

/-! ### Claim C7: the record byte layout -/

theorem encode_append_length (h : Header) (r : Bytes) :
    (Header.encode h ++ r).length = 20 + r.length := by
  simp [encode_length]

theorem hdr_drop_20_add (h : Header) (r : Bytes) (n : Nat) :
    (Header.encode h ++ r).drop (20 + n) = r.drop n := by
  rw [← List.drop_drop, hdr_drop_20]

theorem drop_eight_u32le (a b : Nat) (l : Bytes) :
    (u32le a ++ (u32le b ++ l)).drop 8 = l := by
  rw [show (8 : Nat) = 4 + 4 from rfl, ← List.drop_drop, drop_four_u32le, drop_four_u32le]

theorem toInt32_of_lt {n : Nat} (h : n < 2 ^ 31) : toInt32 n = (n : Int) := by
  unfold toInt32
  rw [Nat.mod_eq_of_lt (by omega), if_pos (by omega)]

/-- Claim C7 (amended): record encoding is little-endian with the fixed
20-byte header Checksum, Timestamp, Expiry, KeySize, ValSize followed by
the key bytes then the value bytes; the checksum Put stores is the CRC of
the value payload only; and Header.decode interprets the same layout. But
the entry decoders of src (decodeEntry, decodeEntryFromReader) interpret
a different 8-byte layout, KeySize then ValSize then key then value, with
no checksum at all (see the counterexample). -/
theorem claim7_amended (h : Header) (k v junk r : Bytes) (t : Nat)
    (hkb : k.length < 2 ^ 31) (hvb : v.length < 2 ^ 31) :
    Record.encode ⟨h, k, v⟩
      = u32le h.Checksum ++ u32le h.Timestamp ++ u32le h.Expiry ++
          u32le h.KeySize ++ u32le h.ValSize ++ k ++ v ∧
    (putHeader k v t).Checksum = crc32 v ∧
    Header.decode (Header.encode h ++ r)
      = some ⟨h.Checksum % 2 ^ 32, h.Timestamp % 2 ^ 32, h.Expiry % 2 ^ 32,
              h.KeySize % 2 ^ 32, h.ValSize % 2 ^ 32⟩ ∧
    decodeEntry (u32le k.length ++ u32le v.length ++ k ++ v ++ junk) = some v := by
  refine ⟨rfl, rfl, ?_, ?_⟩
  · unfold Header.decode
    rw [if_neg (by rw [encode_append_length]; omega),
        hdr_read_0, hdr_read_4, hdr_read_8, hdr_read_12, hdr_read_16]
  · have hd : u32le k.length ++ u32le v.length ++ k ++ v ++ junk
        = u32le k.length ++ (u32le v.length ++ (k ++ (v ++ junk))) := by
      simp [List.append_assoc]
    have h0 : readU32 (u32le k.length ++ (u32le v.length ++ (k ++ (v ++ junk))))
        = k.length := by rw [readU32_u32le]; omega
    have h4 : readU32 ((u32le k.length ++ (u32le v.length ++ (k ++ (v ++ junk)))).drop 4)
        = v.length := by rw [drop_four_u32le, readU32_u32le]; omega
    have hlen : (u32le k.length ++ (u32le v.length ++ (k ++ (v ++ junk)))).length
        = 8 + (k.length + (v.length + junk.length)) := by simp [u32le]; omega
    simp only [decodeEntry, hd, h0, h4, hlen, toInt32_of_lt hkb, toInt32_of_lt hvb]
    rw [if_neg (by omega),
        if_pos ⟨by omega, by exact_mod_cast Nat.zero_le v.length, by push_cast; omega⟩]
    have hdrop : ((8 : Int) + (k.length : Int)).toNat = 8 + k.length := by omega
    rw [hdrop, show ((v.length : Int)).toNat = v.length by omega,
        show (8 : Nat) + k.length = 8 + k.length from rfl]
    rw [← List.drop_drop (k.length) 8, drop_eight_u32le, List.drop_left, List.take_left]

/-- Claim C7 witness: a concrete record decoded through decodeEntry under
its 8-byte entry layout. -/
theorem claim7_amended_witness :
    decodeEntry (u32le 1 ++ u32le 1 ++ [97] ++ [7] ++ [9]) = some [7] :=
  (claim7_amended ⟨1, 2, 3, 4, 5⟩ [97] [7] [9] [8] 0 (by decide) (by decide)).2.2.2

/-! ### Claim C8: error propagation -/

/-- Claim C8 (amended): Put, Get and recoverIndex propagate the failures
they encounter — Get returns every decode failure of the record at the
indexed active-file location, and recoverIndex aborts with the decode
error when the active region's first record fails to decode — but
Compact discards read errors with blank-identifier assignments and
returns success regardless (see the counterexample). -/
theorem claim8_amended (db : Bitcask) (k : Key) (off : FileOffset) (e : GoErr) (bs : Bytes)
    (hoff : lookupIdx db.index k = some off)
    (hb : bytesAt db off = some bs)
    (hdec : decodeRecord bs = .error e) :
    Get db k = some (.error e) ∧
    (db.dataFiles = [] → 0 < db.activeOffset →
      decodeRecordSized db.mmapData = .error e → recoverIndex db = .error e) := by
  constructor
  · simp only [Get, hoff]
    rw [hb]
    dsimp only
    rw [hdec]
    rfl
  · intro hdf hao hdm
    have h1 : scanActive db.mmapData db.activeOffset (db.activeOffset + 1) 0 db.index
        = .error e := by
      simp only [scanActive]
      rw [if_pos hao, List.drop_zero, hdm]
    unfold recoverIndex
    rw [hdf]
    simp only [scanFiles]
    rw [h1]

/-- Claim C8 witness: a concrete corrupt record whose decode failure is
returned by Get and aborts recoverIndex. -/
theorem claim8_amended_witness :
    Get ⟨u32le 1 ++ List.replicate 16 0, [], [([120], ⟨-1, 0⟩)], 20, 20⟩ [120]
      = some (.error .Corrupt) ∧
    recoverIndex ⟨u32le 1 ++ List.replicate 16 0, [], [([120], ⟨-1, 0⟩)], 20, 20⟩
      = .error .Corrupt := by
  have h := claim8_amended ⟨u32le 1 ++ List.replicate 16 0, [], [([120], ⟨-1, 0⟩)], 20, 20⟩
    [120] ⟨-1, 0⟩ .Corrupt (u32le 1 ++ List.replicate 16 0)
    (by decide) (by decide) (by decide)
  exact ⟨h.1, h.2 (by decide) (by decide) (by decide)⟩

/-! ### Claim C10: the Expiry field is written as zero and never acted on -/

/-- Claim C10: every record Put builds carries Expiry 0, and record
decoding is insensitive to the stored Expiry field: the decoded key,
value and record size — everything Get and recovery act on — are
identical for any two expiry values, so stored values never expire. -/
theorem claim10_expiry_unused (k v : Bytes) (t : Nat) (h : Header) (x1 x2 : Nat)
    (junk : Bytes) :
    (putHeader k v t).Expiry = 0 ∧
    (decodeRecordSized
        (Header.encode ⟨h.Checksum, h.Timestamp, x1, h.KeySize, h.ValSize⟩ ++ junk)).map
        (fun es => (es.1.Key, es.1.Value, es.2))
      = (decodeRecordSized
          (Header.encode ⟨h.Checksum, h.Timestamp, x2, h.KeySize, h.ValSize⟩ ++ junk)).map
          (fun es => (es.1.Key, es.1.Value, es.2)) := by
  refine ⟨rfl, ?_⟩
  simp only [decodeRecordSized, encode_append_length, hdr_read_0, hdr_read_4, hdr_read_8,
             hdr_read_12, hdr_read_16, hdr_drop_20, hdr_drop_20_add]
  split_ifs <;> rfl

/-! ### Claim C2: crash recovery -/

theorem encOf_length (p : Key × Bytes × Nat) :
    (encOf p).length = 20 + p.1.length + p.2.1.length :=
  record_encode_length _ _ _

theorem blob_nil : blob [] = [] := rfl

theorem blob_cons (p : Key × Bytes × Nat) (ps : List (Key × Bytes × Nat)) :
    blob (p :: ps) = encOf p ++ blob ps := by
  simp [blob]

theorem encOf_eq (p : Key × Bytes × Nat) :
    Record.encode ⟨putHeader p.1 p.2.1 p.2.2, p.1, p.2.1⟩ = encOf p := rfl

theorem blob_length_ge (ps : List (Key × Bytes × Nat)) : ps.length ≤ (blob ps).length := by
  induction ps with
  | nil => simp [blob]
  | cons p ps ih =>
    rw [blob_cons, List.length_append, List.length_cons, encOf_length]
    omega

/-- The state a rotation-free sequence of Puts reaches from a state whose
mapped region is a written prefix B followed by zeros: the records append
to the prefix, the offset advances past them, and the index accumulates
the active-file location of every record. -/
theorem applyPuts_shape (ps : List (Key × Bytes × Nat)) :
    ∀ (B : Bytes) (acc : Index) (mF : Nat),
      B.length + (blob ps).length ≤ mF →
      applyPuts ⟨B ++ List.replicate (mF - B.length) 0, [], acc, mF, B.length⟩ ps
        = ⟨(B ++ blob ps) ++ List.replicate (mF - (B.length + (blob ps).length)) 0, [],
           buildIdx acc B.length ps, mF, B.length + (blob ps).length⟩ := by
  induction ps with
  | nil =>
    intro B acc mF hfit
    simp [applyPuts, blob, buildIdx]
  | cons p ps ih =>
    intro B acc mF hfit
    have hbl : (blob (p :: ps)).length = (encOf p).length + (blob ps).length := by
      rw [blob_cons, List.length_append]
    have he := encOf_length p
    have hc : ¬ (B.length + (encOf p).length > mF) := by omega
    rw [show applyPuts ⟨B ++ List.replicate (mF - B.length) 0, [], acc, mF, B.length⟩ (p :: ps)
        = applyPuts
            (Put ⟨B ++ List.replicate (mF - B.length) 0, [], acc, mF, B.length⟩ p.1 p.2.1 p.2.2)
            ps from rfl]
    have hput : Put ⟨B ++ List.replicate (mF - B.length) 0, [], acc, mF, B.length⟩
          p.1 p.2.1 p.2.2
        = ⟨(B ++ encOf p) ++ List.replicate (mF - (B ++ encOf p).length) 0, [],
           setIdx acc p.1 ⟨-1, (B.length : Int)⟩, mF, (B ++ encOf p).length⟩ := by
      simp only [Put]
      dsimp only
      rw [encOf_eq, if_neg hc, writeAt_fits B (mF - B.length) (encOf p) (by omega)]
      dsimp only
      simp only [List.length_append]
      rw [show (mF - B.length) - (encOf p).length = mF - (B.length + (encOf p).length) from by
        omega]
    rw [hput, ih (B ++ encOf p) (setIdx acc p.1 ⟨-1, (B.length : Int)⟩) mF
        (by rw [List.length_append]; omega)]
    have h1 : (B ++ encOf p) ++ blob ps = B ++ blob (p :: ps) := by
      rw [blob_cons, List.append_assoc]
    have h2 : (B ++ encOf p).length + (blob ps).length = B.length + (blob (p :: ps)).length := by
      rw [List.length_append, blob_cons, List.length_append]
      omega
    rw [h1, h2,
        show buildIdx acc B.length (p :: ps)
        = buildIdx (setIdx acc p.1 ⟨-1, (B.length : Int)⟩) (B.length + (encOf p).length) ps
        from rfl,
        show (B ++ encOf p).length = B.length + (encOf p).length
        from List.length_append _ _]

/-- The recovery scan over a region whose bytes from pos on are the
records of a Put sequence (followed by anything) rebuilds exactly the
index those Puts built, provided the scan stops at the end of the
records. -/
theorem scanActive_blob (ps : List (Key × Bytes × Nat)) :
    ∀ (m junk : Bytes) (fuel pos : Nat) (idx : Index),
      m.drop pos = blob ps ++ junk →
      (∀ p ∈ ps, p.1.length < 2 ^ 32 ∧ p.2.1.length < 2 ^ 32) →
      ps.length ≤ fuel →
      scanActive m (pos + (blob ps).length) fuel pos idx = .ok (buildIdx idx pos ps) := by
  induction ps with
  | nil =>
    intro m junk fuel pos idx hdrop hb hfuel
    cases fuel <;> simp [scanActive, blob, buildIdx]
  | cons p ps ih =>
    intro m junk fuel pos idx hdrop hb hfuel
    cases fuel with
    | zero => simp at hfuel
    | succ n =>
      have he := encOf_length p
      have hadec : decodeRecordSized (m.drop pos)
          = .ok (⟨putHeader p.1 p.2.1 p.2.2, p.1, p.2.1⟩, 20 + p.1.length + p.2.1.length) := by
        rw [hdrop, blob_cons, List.append_assoc]
        exact decodeRecordSized_putRecord p.1 p.2.1 p.2.2 _
          (hb p (List.mem_cons_self _ _)).1 (hb p (List.mem_cons_self _ _)).2
      simp only [scanActive]
      rw [if_pos (by rw [blob_cons, List.length_append]; omega), hadec]
      dsimp only
      have hsz : pos + (20 + p.1.length + p.2.1.length) = pos + (encOf p).length := by
        omega
      have haoff : pos + (blob (p :: ps)).length
          = (pos + (encOf p).length) + (blob ps).length := by
        rw [blob_cons, List.length_append]
        omega
      rw [hsz, haoff]
      have hdrop2 : m.drop (pos + (encOf p).length) = blob ps ++ junk := by
        rw [← List.drop_drop, hdrop, blob_cons, List.append_assoc, List.drop_left]
      rw [show buildIdx idx pos (p :: ps)
          = buildIdx (setIdx idx p.1 ⟨-1, (pos : Int)⟩) (pos + (encOf p).length) ps from rfl]
      exact ih m junk n (pos + (encOf p).length) (setIdx idx p.1 ⟨-1, (pos : Int)⟩) hdrop2
        (fun q hq => hb q (List.mem_cons_of_mem _ hq)) (by simp at hfuel; omega)

/-- Claim C2 (amended): for every rotation-free sequence of Puts (the
encoded records together fit in the active file; sizes below 2^32),
dropping the in-memory index and rerunning recovery reproduces the
engine state exactly — in particular the rebuilt index maps every live
key to the same location as before the restart, which therefore decodes
to the same value — and recovery scans the active region from offset 0
up to the last write offset, which equals the total size of the written
records. (As stated the claim fails once a rotation occurs: locations
with FileID -1 go stale, see the counterexample.) -/
theorem claim2_amended (ps : List (Key × Bytes × Nat)) (mF : Nat)
    (hfit : (blob ps).length ≤ mF)
    (hb : ∀ p ∈ ps, p.1.length < 2 ^ 32 ∧ p.2.1.length < 2 ^ 32) :
    recoverIndex (restart (applyPuts (initBitcask mF) ps))
      = .ok (applyPuts (initBitcask mF) ps) ∧
    (applyPuts (initBitcask mF) ps).activeOffset = (blob ps).length := by
  have hinit : initBitcask mF
      = ⟨([] : Bytes) ++ List.replicate (mF - ([] : Bytes).length) 0, [], [], mF,
         ([] : Bytes).length⟩ := by
    simp [initBitcask]
  have hshape := applyPuts_shape ps [] [] mF (by simpa using hfit)
  rw [hinit, hshape]
  have hscan := scanActive_blob ps
    (([] ++ blob ps) ++ List.replicate (mF - (([] : Bytes).length + (blob ps).length)) 0)
    (List.replicate (mF - (([] : Bytes).length + (blob ps).length)) 0)
    ((([] : Bytes).length + (blob ps).length) + 1) 0 []
    (by simp)
    hb
    (by have := blob_length_ge ps; simp; omega)
  constructor
  · unfold restart recoverIndex
    try dsimp only
    simp only [scanFiles]
    try dsimp only
    rw [show (0 : Nat) + (blob ps).length = ([] : Bytes).length + (blob ps).length from rfl]
      at hscan
    rw [hscan]
    rfl
  · simp

/-- Claim C2 witness: a concrete one-Put sequence whose restart-recovery
reproduces the engine state, scanning exactly the written prefix. -/
theorem claim2_amended_witness :
    recoverIndex (restart (applyPuts (initBitcask 30) [([97], [7], 5)]))
      = .ok (applyPuts (initBitcask 30) [([97], [7], 5)]) ∧
    (applyPuts (initBitcask 30) [([97], [7], 5)]).activeOffset
      = (blob [([97], [7], 5)]).length :=
  claim2_amended [([97], [7], 5)] 30 (by decide) (by decide)

end GoMQ
